import Mathlib

/-!
Shallow embedding of the chunked semantic memory store in `jarvis/memory.py`.

Text is modelled as `List Char`; embedding vectors and similarity scores as
rationals.  The table rows, the embedding matrix, lazy loading from disk and
the persistence step of every mutating call are modelled explicitly, following
the Python source line by line.  The external embedding provider is a function
parameter returning `Option` (`none` models a raised provider error).
-/

namespace Jarvis

unseal Rat.mul Rat.inv Rat.add

/-- Text, as a list of characters (Python `str`). -/
abbrev Chars := List Char

/-- Python `\s` on the ASCII range, as used by `re.split(r'(?<=[.!?\n])\s+', ...)`
and `str.strip()`. -/
def isWs (c : Char) : Bool :=
  c == ' ' || c == '\t' || c == '\n' || c == '\r' || c == '\x0b' || c == '\x0c'

/-- The sentence-terminal characters of the lookbehind class `[.!?\n]`. -/
def isTerminal (c : Char) : Bool :=
  c == '.' || c == '!' || c == '?' || c == '\n'

/-- Python `str.strip()`: drop leading and trailing whitespace. -/
def pyStrip (l : Chars) : Chars :=
  ((l.dropWhile isWs).reverse.dropWhile isWs).reverse

/-- Scanner for `re.split(r'(?<=[.!?\n])\s+', text)`: `acc` holds the current
sentence reversed; a split point is a whitespace character directly preceded by
a terminal character, and the maximal whitespace run is consumed as the
separator (`skipping = true` while consuming it, with `acc = []`). -/
def splitAux : List Char → List Char → Bool → List (List Char)
  | [], acc, _ => [acc.reverse]
  | c :: rest, acc, true =>
    if isWs c then splitAux rest acc true
    else splitAux rest (c :: acc) false
  | c :: rest, acc, false =>
    if (match acc with | a :: _ => isTerminal a | [] => false) && isWs c then
      acc.reverse :: splitAux rest [] true
    else
      splitAux rest (c :: acc) false

/-- `re.split(r'(?<=[.!?\n])\s+', text)` from `chunk_text`. -/
def splitSentences (text : Chars) : List Chars :=
  splitAux text [] false

/-- One iteration of the `for sentence in sentences` loop of `chunk_text`:
the state is the pair (closed chunks, current buffer). -/
def chunkStep (chunk_size overlap : Nat) (st : List Chars × Chars) (sentence : Chars) :
    List Chars × Chars :=
  let chunks := st.1
  let current := st.2
  if current.length + sentence.length > chunk_size ∧ current ≠ [] then
    let newCur :=
      if 0 < overlap ∧ overlap < current.length then
        let overlapText := current.drop (current.length - overlap)
        let spaceIdx := overlapText.findIdx (fun c => c == ' ')
        let seed :=
          if 0 < spaceIdx ∧ spaceIdx < overlapText.length then
            overlapText.drop (spaceIdx + 1)
          else overlapText
        seed ++ ' ' :: sentence
      else sentence
    (chunks ++ [pyStrip current], newCur)
  else
    (chunks, if current = [] then sentence else pyStrip (current ++ ' ' :: sentence))

/-- `chunk_text(text, chunk_size, overlap)` from `jarvis/memory.py`. -/
def chunk_text (text : Chars) (chunk_size overlap : Nat) : List Chars :=
  if text.length ≤ chunk_size then [text]
  else
    let sentences := splitSentences text
    let st := sentences.foldl (chunkStep chunk_size overlap) ([], [])
    let chunks := if pyStrip st.2 ≠ [] then st.1 ++ [pyStrip st.2] else st.1
    if chunks = [] then [text] else chunks

/-- `CHUNK_SIZE` in `jarvis/memory.py`. -/
def CHUNK_SIZE : Nat := 250

/-- `CHUNK_OVERLAP` in `jarvis/memory.py`. -/
def CHUNK_OVERLAP : Nat := 50

/-- A row of the memories table: `{id, content, created_at}`. -/
structure MemoryRow where
  id : Chars
  content : Chars
  created_at : Chars
deriving DecidableEq

/-- A row of the chunks table: `{memory_id, chunk_index, chunk_text, embedding}`. -/
structure ChunkRow where
  memory_id : Chars
  chunk_index : Nat
  chunkText : Chars
  embedding : List ℚ
deriving DecidableEq

/-- The in-memory state of a `MemoryManager`: the two tables plus the dense
embedding matrix (`_memories`, `_chunks`, `_chunk_embeddings`). -/
structure Store where
  memories : List MemoryRow
  chunks : List ChunkRow
  chunk_embeddings : List (List ℚ)
deriving DecidableEq

/-- The matrix is consistent with the chunk table: row `i` of
`_chunk_embeddings` is the embedding of chunk row `i`. -/
def Store.Consistent (st : Store) : Prop :=
  st.chunk_embeddings = st.chunks.map (·.embedding)

instance (st : Store) : Decidable st.Consistent := by
  unfold Store.Consistent; infer_instance

/-- Whole-manager state: the two persisted parquet tables plus the lazily
loaded cache (`None` until `_load` runs). -/
structure ManagerState where
  disk_memories : List MemoryRow
  disk_chunks : List ChunkRow
  cache : Option Store
deriving DecidableEq

/-- A fresh manager over an empty data directory. -/
def initMS : ManagerState :=
  { disk_memories := [], disk_chunks := [], cache := none }

/-- `_load`: return the cache if present, otherwise materialize the store from
the persisted tables, stacking the embedding column into the matrix. -/
def ManagerState.load (ms : ManagerState) : Store :=
  match ms.cache with
  | some st => st
  | none =>
    { memories := ms.disk_memories
      chunks := ms.disk_chunks
      chunk_embeddings := ms.disk_chunks.map (·.embedding) }

/-- Dot product of two vectors (`matrix @ query_embedding`, one row). -/
def dot (a b : List ℚ) : ℚ :=
  ((a.zip b).map fun p => p.1 * p.2).sum

/-- A result dict of `search`: `{id, content, similarity, created_at}`. -/
structure SearchResult where
  id : Chars
  content : Chars
  similarity : ℚ
  created_at : Chars
deriving DecidableEq

/-- Hydrate a `(memory_id, similarity)` pair with the first matching memory
row (`self._memories[self._memories["id"] == memory_id].iloc[0]`). -/
def hydrate (st : Store) (p : Chars × ℚ) : SearchResult :=
  match st.memories.find? (fun m => decide (m.id = p.1)) with
  | some m => ⟨p.1, m.content, p.2, m.created_at⟩
  | none => ⟨p.1, [], p.2, []⟩

/-- Merge one scored chunk into a per-memory best-score table: update the
entry with the same `memory_id` to the max of the two scores, or append a new
entry. -/
def updateBest : List (Chars × ℚ) → Chars × ℚ → List (Chars × ℚ)
  | [], p => [p]
  | q :: acc, p =>
    if q.1 = p.1 then (q.1, max q.2 p.2) :: acc else q :: updateBest acc p

/-- Best similarity per memory: one `(memory_id, max score)` entry per distinct
`memory_id` of the scored chunk list
(the `groupby("memory_id")["similarity"].max()`). -/
def bestPerMemory : List (Chars × ℚ) → List (Chars × ℚ)
  | [] => []
  | p :: rest => updateBest (bestPerMemory rest) p

/-- Insert into a list kept in descending score order. -/
def insertDesc (x : Chars × ℚ) : List (Chars × ℚ) → List (Chars × ℚ)
  | [] => [x]
  | y :: ys => if y.2 ≤ x.2 then x :: y :: ys else y :: insertDesc x ys

/-- `sort_values("similarity", ascending=False)`. -/
def sortDesc (l : List (Chars × ℚ)) : List (Chars × ℚ) :=
  l.foldr insertDesc []

/-- The result-collection loop of `search`: include an entry when its score
reaches the threshold or fewer than `min_results` entries have been collected
(`k` counts entries collected so far), and break at the first entry excluded
by both conditions. -/
def walk (threshold : ℚ) (min_results : Nat) : Nat → List (Chars × ℚ) → List (Chars × ℚ)
  | _, [] => []
  | k, x :: xs =>
    if threshold ≤ x.2 ∨ k < min_results then x :: walk threshold min_results (k + 1) xs
    else []

/-- `MemoryManager.search`, given the already-embedded query.  Mirrors the
source: empty chunk table short-circuits; otherwise score every matrix row by
dot product, attach scores to chunk rows positionally, take the best score per
memory, sort descending, and collect results with the threshold/minimum
policy. -/
def Store.search (st : Store) (qemb : List ℚ) (threshold : ℚ) (min_results : Nat) :
    List SearchResult :=
  if st.chunks.length = 0 then []
  else
    let sims := st.chunk_embeddings.map fun e => dot e qemb
    let scored := (st.chunks.zip sims).map fun p => (p.1.memory_id, p.2)
    let sorted := sortDesc (bestPerMemory scored)
    (walk threshold min_results 0 sorted).map (hydrate st)

/-- `MemoryManager.save`.  The provider models `_embed_batch` (`none` = raised
error).  Following the source order: load, append the memory row, chunk, embed
— a provider failure propagates at this point, leaving the mutated cache —
then append chunk rows, extend the matrix, persist both tables. -/
def saveM (provider : List Chars → Option (List (List ℚ)))
    (memory_id created_at content : Chars) (ms : ManagerState) :
    ManagerState × Option Chars :=
  let st := ms.load
  let st1 : Store :=
    { st with memories := st.memories ++ [⟨memory_id, content, created_at⟩] }
  let chunksT := chunk_text content CHUNK_SIZE CHUNK_OVERLAP
  match provider chunksT with
  | none => ({ ms with cache := some st1 }, none)
  | some embs =>
    let newRows : List ChunkRow :=
      (chunksT.zip embs).enum.map fun p => ⟨memory_id, p.1, p.2.1, p.2.2⟩
    let st2 : Store :=
      { memories := st1.memories
        chunks := st.chunks ++ newRows
        chunk_embeddings := st.chunk_embeddings ++ embs }
    ({ disk_memories := st2.memories, disk_chunks := st2.chunks, cache := some st2 },
      some memory_id)

/-- `MemoryManager.delete` on the in-memory store: no-op returning `false` for
an unknown id, otherwise filter both tables and rebuild the matrix from the
surviving chunk rows. -/
def Store.deleteOp (st : Store) (memory_id : Chars) : Store × Bool :=
  if memory_id ∈ st.memories.map (·.id) then
    let chunks := st.chunks.filter (fun c => decide (c.memory_id ≠ memory_id))
    ({ memories := st.memories.filter (fun m => decide (m.id ≠ memory_id))
       chunks := chunks
       chunk_embeddings := chunks.map (·.embedding) }, true)
  else (st, false)

/-- `MemoryManager.delete`: load, apply `deleteOp`, persist when a row was
removed. -/
def deleteM (memory_id : Chars) (ms : ManagerState) : ManagerState × Bool :=
  let st := ms.load
  let r := st.deleteOp memory_id
  if r.2 then
    ({ disk_memories := r.1.memories, disk_chunks := r.1.chunks, cache := some r.1 }, true)
  else
    ({ ms with cache := some st }, false)

/-- `MemoryManager.get_all`: the rows of the memories table. -/
def getAllM (ms : ManagerState) : ManagerState × List MemoryRow :=
  let st := ms.load
  ({ ms with cache := some st }, st.memories)

/-- `MemoryManager.search` at manager level.  The provider models `_embed`
(`none` = raised error); the last component counts provider invocations. -/
def searchM (provider : Chars → Option (List ℚ)) (query : Chars)
    (threshold : ℚ) (min_results : Nat) (ms : ManagerState) :
    ManagerState × Option (List SearchResult) × Nat :=
  let st := ms.load
  let ms1 : ManagerState := { ms with cache := some st }
  if st.chunks.length = 0 then (ms1, some [], 0)
  else
    match provider query with
    | none => (ms1, none, 1)
    | some qemb => (ms1, some (st.search qemb threshold min_results), 1)

/-- An operation against one manager, with the embedding provider's answer for
a save recorded in the operation (`none` = provider failure). -/
inductive Op where
  | save (memory_id created_at content : Chars) (embs : Option (List (List ℚ)))
  | del (memory_id : Chars)
deriving DecidableEq

/-- Apply one operation. -/
def runOp (ms : ManagerState) : Op → ManagerState
  | .save memory_id created_at content embs =>
    (saveM (fun _ => embs) memory_id created_at content ms).1
  | .del memory_id => (deleteM memory_id ms).1

/-- Apply a sequence of operations. -/
def runOps (ms : ManagerState) (ops : List Op) : ManagerState :=
  ops.foldl runOp ms

/-- The embedding-provider contract for a save: the batch answer (when it
succeeds) has exactly one vector per chunk. -/
def OpWF : Op → Prop
  | .save _ _ content (some embs) =>
    embs.length = (chunk_text content CHUNK_SIZE CHUNK_OVERLAP).length
  | _ => True

instance (op : Op) : Decidable (OpWF op) := by
  unfold OpWF; cases op with
  | save a b c embs => cases embs <;> infer_instance
  | del a => infer_instance

/-- Concrete three-memory store of the spec's ranking example: one chunk per
memory, scoring 0.9 / 0.5 / 0.1 against the query embedding `[1]`. -/
def stC2 : Store :=
  { memories := [⟨"A".data, "alpha".data, "t1".data⟩, ⟨"B".data, "beta".data, "t2".data⟩,
      ⟨"C".data, "gamma".data, "t3".data⟩]
    chunks := [⟨"A".data, 0, "alpha".data, [(9:ℚ)/10]⟩, ⟨"B".data, 0, "beta".data, [(1:ℚ)/2]⟩,
      ⟨"C".data, 0, "gamma".data, [(1:ℚ)/10]⟩]
    chunk_embeddings := [[(9:ℚ)/10], [(1:ℚ)/2], [(1:ℚ)/10]] }

/-- Concrete store of the spec's multi-chunk scoring example: memory M has
chunks scoring 0.2 / 0.95 / 0.4 against the query `[1]`, memory N a single
chunk scoring 0.9. -/
def stC3 : Store :=
  { memories := [⟨"M".data, "emm".data, "t1".data⟩, ⟨"N".data, "enn".data, "t2".data⟩]
    chunks := [⟨"M".data, 0, "m0".data, [(1:ℚ)/5]⟩, ⟨"M".data, 1, "m1".data, [(19:ℚ)/20]⟩,
      ⟨"M".data, 2, "m2".data, [(2:ℚ)/5]⟩, ⟨"N".data, 0, "n0".data, [(9:ℚ)/10]⟩]
    chunk_embeddings := [[(1:ℚ)/5], [(19:ℚ)/20], [(2:ℚ)/5], [(9:ℚ)/10]] }

/-- `l` occurs contiguously inside `m`. -/
def IsSub (l m : Chars) : Prop := ∃ u v, m = u ++ l ++ v

/-- A sentence is accounted for by a chunker loop state: its stripped text
occurs in a closed chunk or in the current buffer. -/
def SentOk (st : List Chars × Chars) (s : Chars) : Prop :=
  (∃ c ∈ st.1, IsSub (pyStrip s) c) ∨ IsSub (pyStrip s) st.2

/-! ### Substring infrastructure -/

theorem IsSub.refl (l : Chars) : IsSub l l := ⟨[], [], by simp⟩

theorem isSub_nil (m : Chars) : IsSub [] m := ⟨[], m, by simp⟩

theorem IsSub.append_left {l m : Chars} (h : IsSub l m) (x : Chars) : IsSub l (x ++ m) := by
  obtain ⟨u, v, rfl⟩ := h
  exact ⟨x ++ u, v, by simp⟩

theorem IsSub.append_right {l m : Chars} (h : IsSub l m) (x : Chars) : IsSub l (m ++ x) := by
  obtain ⟨u, v, rfl⟩ := h
  exact ⟨u, v ++ x, by simp⟩

theorem IsSub.trans {l m n : Chars} (h1 : IsSub l m) (h2 : IsSub m n) : IsSub l n := by
  obtain ⟨u, v, rfl⟩ := h1
  obtain ⟨u', v', rfl⟩ := h2
  exact ⟨u' ++ u, v ++ v', by simp⟩

theorem eq_nil_of_isSub_nil {l : Chars} (h : IsSub l []) : l = [] := by
  obtain ⟨u, v, h⟩ := h
  have h2 := congrArg List.length h
  simp at h2
  exact List.length_eq_zero.mp (by omega)

theorem IsSub.reverse {l m : Chars} (h : IsSub l m) : IsSub l.reverse m.reverse := by
  obtain ⟨u, v, rfl⟩ := h
  exact ⟨v.reverse, u.reverse, by simp⟩

/-- The head of a `dropWhile` result falsifies the predicate. -/
theorem dropWhile_head_false {p : Char → Bool} (l : Chars) :
    ∀ {c t}, l.dropWhile p = c :: t → p c = false := by
  induction l with
  | nil => intro c t h; simp [List.dropWhile] at h
  | cons a l ih =>
    intro c t h
    by_cases ha : p a
    · rw [List.dropWhile_cons_of_pos ha] at h
      exact ih h
    · rw [List.dropWhile_cons_of_neg ha] at h
      cases h
      exact Bool.of_not_eq_true ha

/-- A substring whose head falsifies `p` survives `dropWhile p`. -/
theorem IsSub.dropWhile {p : Char → Bool} {c : Char} {l' : Chars} :
    ∀ {m : Chars}, IsSub (c :: l') m → p c = false → IsSub (c :: l') (m.dropWhile p)
  | [], h, _ => absurd (eq_nil_of_isSub_nil h) (by simp)
  | d :: m, h, hc => by
    by_cases hd : p d
    · rw [List.dropWhile_cons_of_pos hd]
      obtain ⟨u, v, he⟩ := h
      cases u with
      | nil =>
        simp only [List.nil_append, List.cons_append, List.cons.injEq] at he
        rw [he.1] at hd
        rw [hc] at hd
        simp at hd
      | cons a u =>
        simp only [List.cons_append, List.cons.injEq] at he
        exact IsSub.dropWhile ⟨u, v, by simpa using he.2⟩ hc
    · rw [List.dropWhile_cons_of_neg hd]
      exact h

/-- Structure of a nonempty `pyStrip` result: its first and last characters
are not whitespace. -/
theorem pyStrip_clean (s : Chars) :
    pyStrip s = [] ∨
      ((∃ c t, pyStrip s = c :: t ∧ isWs c = false) ∧
        (∃ d r, (pyStrip s).reverse = d :: r ∧ isWs d = false)) := by
  unfold pyStrip
  cases hb : (s.dropWhile isWs).reverse.dropWhile isWs with
  | nil => left; simp [hb]
  | cons d b2 =>
    right
    have hd : isWs d = false := dropWhile_head_false _ hb
    refine ⟨?_, ⟨d, b2, by simp [hb], hd⟩⟩
    obtain ⟨u, hu⟩ := List.dropWhile_suffix (l := (s.dropWhile isWs).reverse) isWs
    rw [hb] at hu
    have haeq : s.dropWhile isWs = (d :: b2).reverse ++ u.reverse := by
      have h2 := congrArg List.reverse hu
      simp only [List.reverse_append, List.reverse_reverse] at h2
      exact h2.symm
    cases hc : (d :: b2).reverse with
    | nil => exact absurd hc (by simp)
    | cons c t =>
      refine ⟨c, t, by simp [hb, hc], ?_⟩
      rw [hc] at haeq
      exact dropWhile_head_false s haeq

/-- `pyStrip s` occurs inside `s`. -/
theorem pyStrip_isSub_self (s : Chars) : IsSub (pyStrip s) s := by
  obtain ⟨w, hw⟩ := List.dropWhile_suffix (l := s) isWs
  obtain ⟨u, hu⟩ := List.dropWhile_suffix (l := (s.dropWhile isWs).reverse) isWs
  refine ⟨w, u.reverse, ?_⟩
  have h2 : s.dropWhile isWs = pyStrip s ++ u.reverse := by
    have h3 := congrArg List.reverse hu
    simp only [List.reverse_append, List.reverse_reverse] at h3
    exact h3.symm
  calc s = w ++ s.dropWhile isWs := hw.symm
    _ = w ++ (pyStrip s ++ u.reverse) := by rw [h2]
    _ = w ++ pyStrip s ++ u.reverse := by rw [List.append_assoc]

/-- Key preservation lemma: a stripped string occurring inside `m` still occurs
inside `pyStrip m`. -/
theorem IsSub.pyStrip_right {s m : Chars} (h : IsSub (pyStrip s) m) :
    IsSub (pyStrip s) (pyStrip m) := by
  rcases pyStrip_clean s with hnil | ⟨⟨c, t, he, hc⟩, ⟨d, r, her, hd⟩⟩
  · rw [hnil]; exact isSub_nil _
  · have h1 : IsSub (pyStrip s) (m.dropWhile isWs) := by
      rw [he] at h ⊢
      exact h.dropWhile hc
    have h2 : IsSub (pyStrip s).reverse ((m.dropWhile isWs).reverse.dropWhile isWs) := by
      have := h1.reverse
      rw [her] at this ⊢
      exact this.dropWhile hd
    have h3 := h2.reverse
    simpa [pyStrip] using h3

/-! ### Chunker lemmas -/

/-- Every piece produced by the sentence scanner occurs inside the scanned
text (prefixed by the pending accumulator; the accumulator is empty while a
separator is being consumed). -/
theorem splitAux_sub :
    ∀ (l acc : List Char) (sk : Bool), (sk = true → acc = []) →
      ∀ s ∈ splitAux l acc sk, IsSub s (acc.reverse ++ l) := by
  intro l
  induction l with
  | nil =>
    intro acc sk _ s hs
    simp only [splitAux, List.mem_singleton] at hs
    subst hs
    exact ⟨[], [], by simp⟩
  | cons c rest ih =>
    intro acc sk hsk s hs
    cases sk with
    | true =>
      have hacc : acc = [] := hsk rfl
      subst hacc
      simp only [splitAux] at hs
      by_cases hws : isWs c
      · rw [if_pos hws] at hs
        have := ih [] true (fun _ => rfl) s hs
        simpa using (this.append_left [c])
      · rw [if_neg hws] at hs
        have := ih [c] false (by simp) s hs
        simpa using this
    | false =>
      simp only [splitAux] at hs
      split at hs
      · rcases List.mem_cons.mp hs with rfl | hs
        · exact ⟨[], c :: rest, by simp⟩
        · have := ih [] true (fun _ => rfl) s hs
          simp only [List.reverse_nil, List.nil_append] at this
          have h2 := this.append_left (acc.reverse ++ [c])
          simpa [List.append_assoc] using h2
      · have := ih (c :: acc) false (by simp) s hs
        simpa [List.append_assoc] using this

/-- Every sentence of the split occurs inside the original text. -/
theorem splitSentences_sub (text : Chars) : ∀ s ∈ splitSentences text, IsSub s text := by
  intro s hs
  have := splitAux_sub text [] false (by simp) s hs
  simpa using this

/-- `s` occurs inside `seed ++ ' ' :: s`. -/
theorem isSub_seeded (seed s : Chars) : IsSub s (seed ++ ' ' :: s) :=
  ⟨seed ++ [' '], [], by simp⟩

theorem chunkStep_preserves (size ov : Nat) (st : List Chars × Chars) (s x : Chars)
    (h : SentOk st x) : SentOk (chunkStep size ov st s) x := by
  obtain ⟨chunks, cur⟩ := st
  rcases h with ⟨c, hc, hsub⟩ | hsub
  · unfold chunkStep
    dsimp only
    split
    · exact Or.inl ⟨c, by simp [hc], hsub⟩
    · exact Or.inl ⟨c, by simp [hc], hsub⟩
  · unfold chunkStep
    dsimp only
    split
    · exact Or.inl ⟨pyStrip cur, by simp, hsub.pyStrip_right⟩
    · by_cases hcur : cur = ([] : Chars)
      · subst hcur
        have hx : pyStrip x = [] := eq_nil_of_isSub_nil hsub
        exact Or.inr (by rw [hx]; exact isSub_nil _)
      · exact Or.inr (by
          simp only [if_neg hcur]
          exact ((hsub.append_right (' ' :: s)).pyStrip_right))

theorem chunkStep_new (size ov : Nat) (st : List Chars × Chars) (s : Chars) :
    SentOk (chunkStep size ov st s) s := by
  obtain ⟨chunks, cur⟩ := st
  unfold chunkStep
  dsimp only
  split
  · right
    split
    · exact ((pyStrip_isSub_self s).trans (isSub_seeded _ s))
    · exact pyStrip_isSub_self s
  · right
    by_cases hcur : cur = ([] : Chars)
    · simp only [if_pos hcur]
      exact pyStrip_isSub_self s
    · simp only [if_neg hcur]
      exact (((pyStrip_isSub_self s).trans (isSub_seeded cur s)).pyStrip_right)

/-- Fold invariant: the chunker loop keeps every processed sentence accounted
for. -/
theorem foldl_chunkStep_inv (size ov : Nat) (l : List Chars) :
    ∀ st : List Chars × Chars,
      (∀ x, SentOk st x → SentOk (l.foldl (chunkStep size ov) st) x) ∧
      (∀ x ∈ l, SentOk (l.foldl (chunkStep size ov) st) x) := by
  induction l with
  | nil => intro st; exact ⟨fun x h => h, by simp⟩
  | cons s l ih =>
    intro st
    refine ⟨fun x hx => ?_, fun x hx => ?_⟩
    · simpa using (ih (chunkStep size ov st s)).1 x (chunkStep_preserves size ov st s x hx)
    · rcases List.mem_cons.mp hx with rfl | hx
      · simpa using (ih (chunkStep size ov st x)).1 x (chunkStep_new size ov st x)
      · simpa using (ih (chunkStep size ov st s)).2 x hx

/-- `chunk_text` never returns the empty list. -/
theorem chunk_text_ne_nil (text : Chars) (size ov : Nat) : chunk_text text size ov ≠ [] := by
  unfold chunk_text
  split
  · simp
  · dsimp only
    split
    · simp
    · split
      · simp
      · rename_i h2
        exact h2

/-! ### C7: chunking never loses content -/

/-- **C7** (amended): `chunk_text` never drops sentence content: every
sentence of the split occurs — stripped of surrounding whitespace — inside
some chunk of the output; an input no longer than `chunk_size` is returned
whole as a single chunk; and the output is never empty (when the loop closes
no chunk at all, the original text is returned as a single chunk).  Exact
character-level reconstruction by concatenating the chunks fails in general
because inter-sentence whitespace is normalized (see the counterexample). -/
theorem chunk_text_never_loses_content (text : Chars) (size ov : Nat) :
    (∀ s ∈ splitSentences text, ∃ c ∈ chunk_text text size ov, IsSub (pyStrip s) c) ∧
    (text.length ≤ size → chunk_text text size ov = [text]) ∧
    chunk_text text size ov ≠ [] := by
  refine ⟨?_, fun h => by unfold chunk_text; rw [if_pos h], chunk_text_ne_nil text size ov⟩
  intro s hs
  by_cases h1 : text.length ≤ size
  · unfold chunk_text
    rw [if_pos h1]
    exact ⟨text, List.mem_singleton_self text,
      (pyStrip_isSub_self s).trans (splitSentences_sub text s hs)⟩
  · have hok := (foldl_chunkStep_inv size ov (splitSentences text) ([], [])).2 s hs
    unfold chunk_text
    rw [if_neg h1]
    dsimp only
    set st := (splitSentences text).foldl (chunkStep size ov) ([], []) with hst
    rcases hok with ⟨c, hc, hsub⟩ | hsub
    · by_cases h2 : pyStrip st.2 ≠ []
      · rw [if_pos h2, if_neg (by simp)]
        exact ⟨c, by simp [hc], hsub⟩
      · rw [if_neg h2, if_neg (List.ne_nil_of_mem hc)]
        exact ⟨c, hc, hsub⟩
    · by_cases h2 : pyStrip st.2 ≠ []
      · rw [if_pos h2, if_neg (by simp)]
        exact ⟨pyStrip st.2, by simp, hsub.pyStrip_right⟩
      · push_neg at h2
        have hxnil : pyStrip s = [] := by
          have h3 := hsub.pyStrip_right
          rw [h2] at h3
          exact eq_nil_of_isSub_nil h3
        rw [if_neg (not_not_intro h2), hxnil]
        by_cases h3 : st.1 = []
        · rw [if_pos h3]
          exact ⟨text, by simp, isSub_nil text⟩
        · rw [if_neg h3]
          obtain ⟨c, hc⟩ := List.exists_mem_of_ne_nil _ h3
          exact ⟨c, hc, isSub_nil c⟩

/-- **C7 counterexample**: on `"aa.  bb."` with `chunk_size = 3`,
`overlap = 0` (so there are no overlap regions to subtract), the chunks are
`["aa.", "bb."]` and no concatenation of them — plain or space-joined —
reconstructs the original text: its double space was normalized away. -/
theorem chunk_text_reconstruction_fails :
    chunk_text ("aa.  bb.".data) 3 0 = [("aa.".data), ("bb.".data)] ∧
    ("aa.".data) ++ ("bb.".data) ≠ ("aa.  bb.".data) ∧
    ("aa.".data) ++ ' ' :: ("bb.".data) ≠ ("aa.  bb.".data) :=
  ⟨by decide, by decide, by decide⟩

/-- Witness: C7 instantiated on the concrete text `"aa.  bb."`. -/
theorem chunk_text_never_loses_content_witness :
    (∀ s ∈ splitSentences ("aa.  bb.".data),
      ∃ c ∈ chunk_text ("aa.  bb.".data) 3 0, IsSub (pyStrip s) c) ∧
    (("aa.  bb.".data).length ≤ 3 → chunk_text ("aa.  bb.".data) 3 0 = [("aa.  bb.".data)]) ∧
    chunk_text ("aa.  bb.".data) 3 0 ≠ [] :=
  chunk_text_never_loses_content (("aa.  bb.".data)) 3 0

/-! ### C8: overlap seeding of the next buffer -/

/-- Dropping up to a space found by `findIdx` exposes that space. -/
theorem findIdx_space_decomp (tl : Chars) (h : tl.findIdx (fun c => c == ' ') < tl.length) :
    tl.drop (tl.findIdx (fun c => c == ' ')) =
      ' ' :: tl.drop (tl.findIdx (fun c => c == ' ') + 1) := by
  rw [List.drop_eq_getElem_cons h]
  have h4 := List.findIdx_getElem (w := h)
  have h5 : tl[tl.findIdx (fun c => c == ' ')] = ' ' := by simpa using h4
  rw [h5]

/-- **C8** (amended): when `chunk_text` closes a chunk with `overlap > 0`
**and the closed buffer is longer than `overlap`**, the next buffer is the
seed followed by a space and the triggering sentence, where the seed is a
suffix of the closed buffer of length at most `overlap` (the last `overlap`
characters, trimmed past the first space when that space sits at a positive
index), and — when such a space exists — the seed starts right after a space
of the closed buffer, i.e. at a word boundary.  (The original claim omitted
the `overlap < buffer length` guard: a closed buffer no longer than `overlap`
seeds nothing, see the counterexample.) -/
theorem chunkStep_overlap_seed (size ov : Nat) (chunks : List Chars) (cur s : Chars)
    (hov : 0 < ov) (hlen : ov < cur.length) (hclose : size < cur.length + s.length)
    (hne : cur ≠ []) :
    ∃ seed,
      chunkStep size ov (chunks, cur) s = (chunks ++ [pyStrip cur], seed ++ ' ' :: s) ∧
      (∃ u, cur = u ++ seed) ∧
      seed.length ≤ ov ∧
      (0 < (cur.drop (cur.length - ov)).findIdx (fun c => c == ' ') ∧
          (cur.drop (cur.length - ov)).findIdx (fun c => c == ' ') <
            (cur.drop (cur.length - ov)).length →
        ∃ u, cur = u ++ ' ' :: seed) := by
  unfold chunkStep
  dsimp only
  rw [if_pos ⟨hclose, hne⟩, if_pos ⟨hov, hlen⟩]
  by_cases hsp : 0 < (cur.drop (cur.length - ov)).findIdx (fun c => c == ' ') ∧
      (cur.drop (cur.length - ov)).findIdx (fun c => c == ' ') <
        (cur.drop (cur.length - ov)).length
  · rw [if_pos hsp]
    refine ⟨(cur.drop (cur.length - ov)).drop
        ((cur.drop (cur.length - ov)).findIdx (fun c => c == ' ') + 1), rfl, ?_, ?_, ?_⟩
    · refine ⟨cur.take (cur.length - ov) ++ (cur.drop (cur.length - ov)).take
          ((cur.drop (cur.length - ov)).findIdx (fun c => c == ' ') + 1), ?_⟩
      rw [List.append_assoc, List.take_append_drop, List.take_append_drop]
    · rw [List.length_drop, List.length_drop]
      omega
    · intro _
      refine ⟨cur.take (cur.length - ov) ++ (cur.drop (cur.length - ov)).take
          ((cur.drop (cur.length - ov)).findIdx (fun c => c == ' ')), ?_⟩
      rw [List.append_assoc, ← findIdx_space_decomp _ hsp.2, List.take_append_drop,
        List.take_append_drop]
  · rw [if_neg hsp]
    exact ⟨cur.drop (cur.length - ov), rfl,
      ⟨cur.take (cur.length - ov), (List.take_append_drop _ _).symm⟩,
      by rw [List.length_drop]; omega, fun h => absurd h hsp⟩

/-- **C8 counterexample**: with `chunk_size = 4`, `overlap = 10 > 0`, the text
`"ab. cdef."` closes the chunk `"ab."` (length 3 ≤ overlap), and the next
buffer is the bare sentence `"cdef."`, not a buffer seeded with the tail of
`"ab."` as the claim mandates — so the final chunk is `"cdef."`, not
`"ab. cdef."`. -/
theorem chunkStep_seed_counterexample :
    chunk_text ("ab. cdef.".data) 4 10 = [("ab.".data), ("cdef.".data)] ∧
    chunkStep 4 10 ([], ("ab.".data)) ("cdef.".data) = ([("ab.".data)], ("cdef.".data)) ∧
    ("cdef.".data) ≠ ("ab.".data) ++ ' ' :: ("cdef.".data) ∧
    pyStrip (("ab.".data) ++ ' ' :: ("cdef.".data)) ≠ ("cdef.".data) :=
  ⟨by decide, by decide, by decide, by decide⟩

/-- Witness: C8 (amended) instantiated on the closed buffer `"abc de."` with
`overlap = 5` (tail `"c de."`, space at index 1, seed `"de."`). -/
theorem chunkStep_overlap_seed_witness :
    (0 < 5 ∧ 5 < ("abc de.".data).length ∧
      8 < ("abc de.".data).length + ("next.".data).length ∧ ("abc de.".data) ≠ []) ∧
    ∃ seed,
      chunkStep 8 5 ([], ("abc de.".data)) ("next.".data) =
        ([] ++ [pyStrip ("abc de.".data)], seed ++ ' ' :: ("next.".data)) ∧
      (∃ u, ("abc de.".data) = u ++ seed) ∧
      seed.length ≤ 5 ∧
      (0 < (("abc de.".data).drop (("abc de.".data).length - 5)).findIdx (fun c => c == ' ') ∧
          (("abc de.".data).drop (("abc de.".data).length - 5)).findIdx (fun c => c == ' ') <
            (("abc de.".data).drop (("abc de.".data).length - 5)).length →
        ∃ u, ("abc de.".data) = u ++ ' ' :: seed) :=
  ⟨by decide, chunkStep_overlap_seed 8 5 [] (("abc de.".data)) (("next.".data))
    (by decide) (by decide) (by decide) (by decide)⟩

/-! ### Search-pipeline lemmas -/

theorem updateBest_keys (acc : List (Chars × ℚ)) (p : Chars × ℚ) :
    (p.1 ∈ acc.map Prod.fst ∧ (updateBest acc p).map Prod.fst = acc.map Prod.fst) ∨
    (p.1 ∉ acc.map Prod.fst ∧
      (updateBest acc p).map Prod.fst = acc.map Prod.fst ++ [p.1]) := by
  induction acc with
  | nil => exact Or.inr ⟨by simp, by simp [updateBest]⟩
  | cons q acc ih =>
    by_cases h : q.1 = p.1
    · exact Or.inl ⟨by simp [h], by simp [updateBest, h]⟩
    · rcases ih with ⟨hin, hk⟩ | ⟨hout, hk⟩
      · exact Or.inl ⟨by simp [hin], by simp [updateBest, h, hk]⟩
      · refine Or.inr ⟨?_, by simp [updateBest, h, hk]⟩
        simp only [List.map_cons, List.mem_cons]
        push_neg
        exact ⟨fun he => h he.symm, hout⟩

theorem updateBest_mem (acc : List (Chars × ℚ)) (p : Chars × ℚ)
    (hnd : (acc.map Prod.fst).Nodup) :
    ∀ e ∈ updateBest acc p,
      (e ∈ acc ∧ e.1 ≠ p.1) ∨
      (e.1 = p.1 ∧ ((e = p ∧ p.1 ∉ acc.map Prod.fst) ∨
        ∃ q ∈ acc, q.1 = p.1 ∧ e = (p.1, max q.2 p.2))) := by
  induction acc with
  | nil =>
    intro e he
    simp only [updateBest, List.mem_singleton] at he
    subst he
    exact Or.inr ⟨rfl, Or.inl ⟨rfl, by simp⟩⟩
  | cons q acc ih =>
    intro e he
    by_cases h : q.1 = p.1
    · simp only [updateBest, if_pos h] at he
      rcases List.mem_cons.mp he with rfl | he2
      · exact Or.inr ⟨h, Or.inr ⟨q, List.mem_cons_self q acc, h, by rw [h]⟩⟩
      · refine Or.inl ⟨List.mem_cons_of_mem q he2, ?_⟩
        intro hep
        have hmem : q.1 ∈ acc.map Prod.fst := by
          rw [h, ← hep]
          exact List.mem_map_of_mem Prod.fst he2
        exact (List.nodup_cons.mp (by simpa using hnd)).1 hmem
    · simp only [updateBest, if_neg h] at he
      have hnd2 : (acc.map Prod.fst).Nodup := (List.nodup_cons.mp (by simpa using hnd)).2
      rcases List.mem_cons.mp he with rfl | he2
      · exact Or.inl ⟨List.mem_cons_self _ _, h⟩
      · rcases ih hnd2 e he2 with ⟨hmem, hne⟩ | ⟨hep, hrest⟩
        · exact Or.inl ⟨List.mem_cons_of_mem q hmem, hne⟩
        · refine Or.inr ⟨hep, ?_⟩
          rcases hrest with ⟨heq, hnotin⟩ | ⟨qq, hq, hq1, heq⟩
          · refine Or.inl ⟨heq, ?_⟩
            simp only [List.map_cons, List.mem_cons]
            push_neg
            exact ⟨fun hh => h hh.symm, hnotin⟩
          · exact Or.inr ⟨qq, List.mem_cons_of_mem q hq, hq1, heq⟩

theorem bestPerMemory_keys_nodup (l : List (Chars × ℚ)) :
    ((bestPerMemory l).map Prod.fst).Nodup := by
  induction l with
  | nil => simp [bestPerMemory]
  | cons p rest ih =>
    show ((updateBest (bestPerMemory rest) p).map Prod.fst).Nodup
    rcases updateBest_keys (bestPerMemory rest) p with ⟨_, hk⟩ | ⟨hout, hk⟩
    · rw [hk]; exact ih
    · rw [hk, List.nodup_append]
      refine ⟨ih, List.nodup_singleton _, ?_⟩
      intro a ha hb
      simp only [List.mem_singleton] at hb
      subst hb
      exact hout ha

theorem bestPerMemory_covers (l : List (Chars × ℚ)) :
    ∀ x ∈ l, x.1 ∈ (bestPerMemory l).map Prod.fst := by
  induction l with
  | nil => simp
  | cons p rest ih =>
    intro x hx
    show x.1 ∈ (updateBest (bestPerMemory rest) p).map Prod.fst
    rcases List.mem_cons.mp hx with hxp | hx2
    · rcases updateBest_keys (bestPerMemory rest) p with ⟨hin, hk⟩ | ⟨_, hk⟩
      · rw [hxp, hk]; exact hin
      · rw [hxp, hk]; simp
    · rcases updateBest_keys (bestPerMemory rest) p with ⟨_, hk⟩ | ⟨_, hk⟩
      · rw [hk]; exact ih x hx2
      · rw [hk]; exact List.mem_append_left _ (ih x hx2)

/-- Each `bestPerMemory` entry carries the maximum chunk score of its memory:
the score is attained by some scored chunk of that memory and bounds them all. -/
theorem bestPerMemory_spec (l : List (Chars × ℚ)) :
    ∀ e ∈ bestPerMemory l,
      (∃ x ∈ l, x.1 = e.1 ∧ x.2 = e.2) ∧ (∀ x ∈ l, x.1 = e.1 → x.2 ≤ e.2) := by
  induction l with
  | nil => simp [bestPerMemory]
  | cons p rest ih =>
    intro e he
    have he2 : e ∈ updateBest (bestPerMemory rest) p := he
    rcases updateBest_mem (bestPerMemory rest) p (bestPerMemory_keys_nodup rest) e he2 with
      ⟨hmem, hne⟩ | ⟨hep, hrest⟩
    · obtain ⟨⟨x, hx, hx1, hx2⟩, hbnd⟩ := ih e hmem
      refine ⟨⟨x, List.mem_cons_of_mem p hx, hx1, hx2⟩, ?_⟩
      intro y hy hy1
      rcases List.mem_cons.mp hy with rfl | hy2
      · exact absurd hy1 (fun hh => hne hh.symm)
      · exact hbnd y hy2 hy1
    · rcases hrest with ⟨rfl, hnotin⟩ | ⟨q, hq, hq1, heq⟩
      · refine ⟨⟨e, List.mem_cons_self e rest, rfl, rfl⟩, ?_⟩
        intro y hy hy1
        rcases List.mem_cons.mp hy with rfl | hy2
        · exact le_refl _
        · have hcov := bestPerMemory_covers rest y hy2
          rw [hy1, hep] at hcov
          exact absurd hcov hnotin
      · obtain ⟨⟨x, hx, hx1, hx2⟩, hbnd⟩ := ih q hq
        subst heq
        refine ⟨?_, ?_⟩
        · rcases max_choice q.2 p.2 with hm | hm
          · exact ⟨x, List.mem_cons_of_mem p hx, by simp [hx1, hq1], by simp [hx2, hm]⟩
          · exact ⟨p, List.mem_cons_self p rest, by simp, by simp [hm]⟩
        · intro y hy hy1
          rcases List.mem_cons.mp hy with rfl | hy2
          · exact le_max_right _ _
          · have hyq : y.1 = q.1 := by rw [hy1] at *; simp [hq1]
            exact le_trans (hbnd y hy2 hyq) (le_max_left _ _)

theorem insertDesc_perm (x : Chars × ℚ) (l : List (Chars × ℚ)) :
    (insertDesc x l).Perm (x :: l) := by
  induction l with
  | nil => exact List.Perm.refl _
  | cons y ys ih =>
    unfold insertDesc
    split
    · exact List.Perm.refl _
    · exact (ih.cons y).trans (List.Perm.swap x y ys)

theorem sortDesc_perm (l : List (Chars × ℚ)) : (sortDesc l).Perm l := by
  induction l with
  | nil => exact List.Perm.refl _
  | cons x xs ih =>
    show (insertDesc x (sortDesc xs)).Perm (x :: xs)
    exact (insertDesc_perm x (sortDesc xs)).trans (ih.cons x)

theorem insertDesc_sorted (x : Chars × ℚ) (l : List (Chars × ℚ))
    (h : l.Pairwise (fun a b => b.2 ≤ a.2)) :
    (insertDesc x l).Pairwise (fun a b => b.2 ≤ a.2) := by
  induction l with
  | nil => simp [insertDesc]
  | cons y ys ih =>
    rcases List.pairwise_cons.mp h with ⟨hy, hys⟩
    unfold insertDesc
    split
    · rename_i hle
      refine List.pairwise_cons.mpr ⟨?_, h⟩
      intro b hb
      rcases List.mem_cons.mp hb with rfl | hb2
      · exact hle
      · exact le_trans (hy b hb2) hle
    · rename_i hgt
      push_neg at hgt
      refine List.pairwise_cons.mpr ⟨?_, ih hys⟩
      intro b hb
      have hb2 := (insertDesc_perm x ys).mem_iff.mp hb
      rcases List.mem_cons.mp hb2 with rfl | hb3
      · exact le_of_lt hgt
      · exact hy b hb3

theorem sortDesc_sorted (l : List (Chars × ℚ)) :
    (sortDesc l).Pairwise (fun a b => b.2 ≤ a.2) := by
  induction l with
  | nil => simp [sortDesc]
  | cons x xs ih => exact insertDesc_sorted x (sortDesc xs) ih

/-- The collection loop takes exactly a prefix: each taken entry passes the
threshold test or is within the minimum count, and the first entry dropped
(if any) fails both. -/
theorem walk_eq_take (thr : ℚ) (minr : Nat) :
    ∀ (l : List (Chars × ℚ)) (k : Nat),
      ∃ n, n ≤ l.length ∧ walk thr minr k l = l.take n ∧
        (∀ i : Fin l.length, i.1 < n → thr ≤ (l.get i).2 ∨ k + i.1 < minr) ∧
        (∀ h : n < l.length, (l.get ⟨n, h⟩).2 < thr ∧ minr ≤ k + n) := by
  intro l
  induction l with
  | nil =>
    intro k
    exact ⟨0, le_rfl, rfl, fun i _ => absurd i.2 (Nat.not_lt_zero _),
      fun h => absurd h (Nat.not_lt_zero _)⟩
  | cons x xs ih =>
    intro k
    by_cases hc : thr ≤ x.2 ∨ k < minr
    · obtain ⟨n, hn, hw, hcond, hcut⟩ := ih (k + 1)
      refine ⟨n + 1, by simpa using hn, ?_, ?_, ?_⟩
      · simp only [walk, if_pos hc, List.take_succ_cons, hw]
      · intro i hi
        rcases i with ⟨iv, hiv⟩
        cases iv with
        | zero => simpa using hc
        | succ j =>
          have hj : j < xs.length := by simpa using hiv
          have hi2 : j + 1 < n + 1 := hi
          rcases hcond ⟨j, hj⟩ (show j < n by omega) with hor | hor
          · left; simpa using hor
          · right
            have hor2 : k + 1 + j < minr := hor
            show k + (j + 1) < minr
            omega
      · intro h
        have hlt : n < xs.length := by simpa using h
        obtain ⟨h1, h2⟩ := hcut hlt
        exact ⟨by simpa using h1, by omega⟩
    · push_neg at hc
      refine ⟨0, by simp, by simp [walk, hc.1.not_le, hc.2.not_lt], ?_, ?_⟩
      · intro i hi
        exact absurd hi (Nat.not_lt_zero _)
      · intro h
        exact ⟨by simpa using hc.1, by omega⟩

/-! ### Search bridging lemmas -/

theorem hydrate_id (st : Store) (p : Chars × ℚ) : (hydrate st p).id = p.1 := by
  unfold hydrate
  cases st.memories.find? (fun m => decide (m.id = p.1)) <;> rfl

theorem hydrate_similarity (st : Store) (p : Chars × ℚ) :
    (hydrate st p).similarity = p.2 := by
  unfold hydrate
  cases st.memories.find? (fun m => decide (m.id = p.1)) <;> rfl

/-- Attaching positionally-computed scores to the chunk rows: under the
matrix/table consistency invariant this scores each chunk by its own
embedding. -/
theorem scored_eq (chunks : List ChunkRow) (embs : List (List ℚ)) (qemb : List ℚ)
    (hc : embs = chunks.map (·.embedding)) :
    (chunks.zip (embs.map fun e => dot e qemb)).map (fun p => (p.1.memory_id, p.2)) =
      chunks.map fun c => (c.memory_id, dot c.embedding qemb) := by
  subst hc
  induction chunks with
  | nil => rfl
  | cons c cs ih => simpa using ih

/-- On a consistent, non-empty store, `search` is the hydrated walk of the
descending-sorted per-memory best scores. -/
theorem search_eq_pipeline (st : Store) (qemb : List ℚ) (thr : ℚ) (minr : Nat)
    (hcon : st.Consistent) (hne : ¬ st.chunks.length = 0) :
    st.search qemb thr minr =
      (walk thr minr 0 (sortDesc (bestPerMemory
        (st.chunks.map fun c => (c.memory_id, dot c.embedding qemb))))).map (hydrate st) := by
  unfold Store.search
  rw [if_neg hne]
  dsimp only
  rw [scored_eq st.chunks st.chunk_embeddings qemb hcon]

theorem walk_sublist (thr : ℚ) (minr : Nat) (l : List (Chars × ℚ)) (k : Nat) :
    (walk thr minr k l).Sublist l := by
  obtain ⟨n, _, hw, _, _⟩ := walk_eq_take thr minr l k
  rw [hw]
  exact List.take_sublist n l

theorem walkout_keys_nodup (scored : List (Chars × ℚ)) (thr : ℚ) (minr : Nat) :
    ((walk thr minr 0 (sortDesc (bestPerMemory scored))).map Prod.fst).Nodup := by
  have h1 : ((bestPerMemory scored).map Prod.fst).Nodup := bestPerMemory_keys_nodup scored
  have h2 : ((sortDesc (bestPerMemory scored)).map Prod.fst).Nodup :=
    ((sortDesc_perm (bestPerMemory scored)).map Prod.fst).nodup_iff.mpr h1
  exact h2.sublist ((walk_sublist thr minr _ 0).map Prod.fst)

theorem walkout_mem_best (scored : List (Chars × ℚ)) (thr : ℚ) (minr : Nat) :
    ∀ y ∈ walk thr minr 0 (sortDesc (bestPerMemory scored)), y ∈ bestPerMemory scored := by
  intro y hy
  exact (sortDesc_perm (bestPerMemory scored)).subset ((walk_sublist thr minr _ 0).subset hy)

theorem walkout_keys_mem (scored : List (Chars × ℚ)) (thr : ℚ) (minr : Nat) :
    ∀ y ∈ walk thr minr 0 (sortDesc (bestPerMemory scored)), y.1 ∈ scored.map Prod.fst := by
  intro y hy
  obtain ⟨⟨x, hx, hx1, -⟩, -⟩ :=
    bestPerMemory_spec scored y (walkout_mem_best scored thr minr y hy)
  exact hx1 ▸ List.mem_map_of_mem Prod.fst hx

/-- Counting distinct elements: a duplicate-free list contained in `m` is no
longer than `m.dedup`. -/
theorem length_le_dedup_of_nodup {l m : List Chars} (hn : l.Nodup)
    (hsub : ∀ x ∈ l, x ∈ m) : l.length ≤ m.dedup.length := by
  classical
  have h1 : l.toFinset.card = l.length := List.toFinset_card_of_nodup hn
  have h2 : m.toFinset.card = m.dedup.length := List.card_toFinset m
  have hsub2 : l.toFinset ⊆ m.toFinset := by
    intro a ha
    rw [List.mem_toFinset] at ha ⊢
    exact hsub a ha
  calc l.length = l.toFinset.card := h1.symm
    _ ≤ m.toFinset.card := Finset.card_le_card hsub2
    _ = m.dedup.length := h2

/-! ### C9: empty store short-circuits search -/

/-- **C9**: `search` on a store whose chunk table is empty succeeds with an
empty result list and performs zero embedding-provider calls, for every
provider, query, threshold and `min_results`. -/
theorem search_empty_store (provider : Chars → Option (List ℚ)) (query : Chars)
    (thr : ℚ) (minr : Nat) (ms : ManagerState) (h : ms.load.chunks = []) :
    searchM provider query thr minr ms = ({ ms with cache := some ms.load }, some [], 0) := by
  unfold searchM
  rw [if_pos (by simp [h])]

/-- Witness: C9 on a fresh manager and an always-failing provider. -/
theorem search_empty_store_witness :
    initMS.load.chunks = [] ∧
    searchM (fun _ => none) ("query".data) ((3:ℚ)/10) 3 initMS =
      ({ initMS with cache := some initMS.load }, some [], 0) :=
  ⟨rfl, search_empty_store (fun _ => none) (("query".data)) ((3:ℚ)/10) 3 initMS rfl⟩

/-! ### C10: no duplicate memories among results -/

/-- **C10**: each memory id appears at most once in the result of `search`,
so the result never has more entries than the chunk table has distinct
memory ids. -/
theorem search_no_duplicate_memories (st : Store) (qemb : List ℚ) (thr : ℚ) (minr : Nat) :
    ((st.search qemb thr minr).map (·.id)).Nodup ∧
    (st.search qemb thr minr).length ≤ (st.chunks.map (·.memory_id)).dedup.length := by
  unfold Store.search
  by_cases h0 : st.chunks.length = 0
  · rw [if_pos h0]
    exact ⟨List.nodup_nil, by simp⟩
  · rw [if_neg h0]
    dsimp only
    set scored := (st.chunks.zip (st.chunk_embeddings.map fun e => dot e qemb)).map
      (fun p => (p.1.memory_id, p.2)) with hscored
    set wout := walk thr minr 0 (sortDesc (bestPerMemory scored)) with hwout
    have hids : (wout.map (hydrate st)).map (·.id) = wout.map Prod.fst := by
      simp only [List.map_map, Function.comp_def, hydrate_id]
    have hscored_ids : ∀ z ∈ scored.map Prod.fst, z ∈ st.chunks.map (·.memory_id) := by
      intro z hz
      rw [hscored] at hz
      simp only [List.map_map, Function.comp_def, List.mem_map] at hz
      obtain ⟨p, hp, rfl⟩ := hz
      exact List.mem_map_of_mem _ (List.of_mem_zip (by simpa using hp)).1
    refine ⟨?_, ?_⟩
    · rw [hids]
      exact walkout_keys_nodup scored thr minr
    · calc (wout.map (hydrate st)).length = (wout.map Prod.fst).length := by simp
        _ ≤ (st.chunks.map (·.memory_id)).dedup.length := by
          refine length_le_dedup_of_nodup (walkout_keys_nodup scored thr minr) ?_
          intro x hx
          obtain ⟨y, hy, rfl⟩ := List.mem_map.mp hx
          exact hscored_ids y.1 (walkout_keys_mem scored thr minr y hy)

/-! ### C3: per-memory max scoring -/

/-- **C3**: on every consistent store, each search result's similarity is the
maximum of its memory's chunk dot products with the query — attained by one
chunk and bounding all its chunks — and the result list is ordered by that
per-memory maximum, descending.  Concretely, a memory with chunk scores
`[0.2, 0.95, 0.4]` ranks at `0.95`, ahead of a memory scoring `0.9` (the
average `0.517` would have ranked it behind). -/
theorem search_scores_by_best_chunk :
    (∀ (st : Store) (qemb : List ℚ) (thr : ℚ) (minr : Nat), st.Consistent →
      ((st.search qemb thr minr).Pairwise fun a b => b.similarity ≤ a.similarity) ∧
      ∀ r ∈ st.search qemb thr minr,
        (∃ c ∈ st.chunks, c.memory_id = r.id ∧ dot c.embedding qemb = r.similarity) ∧
        (∀ c ∈ st.chunks, c.memory_id = r.id → dot c.embedding qemb ≤ r.similarity)) ∧
    (stC3.search [1] 0 0).map (fun r => (r.id, r.similarity)) =
      [(("M".data), (19:ℚ)/20), (("N".data), (9:ℚ)/10)] := by
  constructor
  · intro st qemb thr minr hcon
    by_cases h0 : st.chunks.length = 0
    · constructor
      · unfold Store.search
        rw [if_pos h0]
        exact List.Pairwise.nil
      · intro r hr
        unfold Store.search at hr
        rw [if_pos h0] at hr
        simp at hr
    · rw [search_eq_pipeline st qemb thr minr hcon h0]
      set scored := st.chunks.map fun c => (c.memory_id, dot c.embedding qemb) with hsc
      set wout := walk thr minr 0 (sortDesc (bestPerMemory scored)) with hw
      constructor
      · have hsorted := sortDesc_sorted (bestPerMemory scored)
        have htake : wout.Pairwise (fun a b => b.2 ≤ a.2) :=
          hsorted.sublist (walk_sublist thr minr _ 0)
        exact htake.map (hydrate st)
          (fun a b hab => by simpa [hydrate_similarity] using hab)
      · intro r hr
        obtain ⟨y, hy, rfl⟩ := List.mem_map.mp hr
        obtain ⟨⟨x, hx, hx1, hx2⟩, hbnd⟩ :=
          bestPerMemory_spec scored y (walkout_mem_best scored thr minr y hy)
        rw [hsc] at hx
        obtain ⟨c, hc, rfl⟩ := List.mem_map.mp hx
        constructor
        · exact ⟨c, hc, by rw [hydrate_id]; exact hx1, by rw [hydrate_similarity]; exact hx2⟩
        · intro c2 hc2 hcid
          have hmem : (c2.memory_id, dot c2.embedding qemb) ∈ scored := by
            rw [hsc]
            exact List.mem_map_of_mem _ hc2
          rw [hydrate_id] at hcid
          rw [hydrate_similarity]
          exact hbnd _ hmem hcid
  · decide

/-- Witness: C3's general part instantiated on the concrete store `stC3`. -/
theorem search_scores_by_best_chunk_witness :
    stC3.Consistent ∧
    (((stC3.search [1] 0 0).Pairwise fun a b => b.similarity ≤ a.similarity) ∧
      ∀ r ∈ stC3.search [1] 0 0,
        (∃ c ∈ stC3.chunks, c.memory_id = r.id ∧ dot c.embedding [1] = r.similarity) ∧
        (∀ c ∈ stC3.chunks, c.memory_id = r.id → dot c.embedding [1] ≤ r.similarity)) :=
  ⟨by decide, search_scores_by_best_chunk.1 stC3 [1] 0 0 (by decide)⟩

/-! ### C2: ranked walk with threshold and minimum-result floor -/

/-- **C2**: on every consistent non-empty store, `search` returns a prefix of
the per-memory best scores sorted descending, hydrated; entry `i` is included
exactly when its score passes the threshold or fewer than `min_results`
entries precede it, and the first entry failing both conditions (if any) cuts
the scan off there.  Concretely, per-memory scores 0.9 / 0.5 / 0.1 with
`threshold = 0.3`, `min_results = 3` return `[A, B, C]` in that order, C
included solely by the minimum-result floor. -/
theorem search_walk_policy :
    (∀ (st : Store) (qemb : List ℚ) (thr : ℚ) (minr : Nat), st.Consistent →
      ¬ st.chunks.length = 0 →
      let sorted := sortDesc (bestPerMemory
        (st.chunks.map fun c => (c.memory_id, dot c.embedding qemb)))
      ∃ n, n ≤ sorted.length ∧
        st.search qemb thr minr = (sorted.take n).map (hydrate st) ∧
        (∀ i : Fin sorted.length, i.1 < n → thr ≤ (sorted.get i).2 ∨ i.1 < minr) ∧
        (∀ h : n < sorted.length, (sorted.get ⟨n, h⟩).2 < thr ∧ minr ≤ n)) ∧
    (stC2.search [1] ((3:ℚ)/10) 3).map (fun r => (r.id, r.similarity)) =
      [(("A".data), (9:ℚ)/10), (("B".data), (1:ℚ)/2), (("C".data), (1:ℚ)/10)] := by
  constructor
  · intro st qemb thr minr hcon h0
    rw [search_eq_pipeline st qemb thr minr hcon h0]
    dsimp only
    set sorted := sortDesc (bestPerMemory
      (st.chunks.map fun c => (c.memory_id, dot c.embedding qemb))) with hs
    obtain ⟨n, hn, hw, hcond, hcut⟩ := walk_eq_take thr minr sorted 0
    refine ⟨n, hn, ?_, ?_, ?_⟩
    · rw [hw]
    · intro i hi
      rcases hcond i hi with h | h
      · exact Or.inl h
      · exact Or.inr (by omega)
    · intro h
      refine ⟨(hcut h).1, ?_⟩
      have h2 := (hcut h).2
      omega
  · decide

/-- Witness: C2's general part instantiated on the concrete store `stC2` with
`threshold = 0.3`, `min_results = 3`. -/
theorem search_walk_policy_witness :
    stC2.Consistent ∧ ¬ stC2.chunks.length = 0 ∧
    (let sorted := sortDesc (bestPerMemory
      (stC2.chunks.map fun c => (c.memory_id, dot c.embedding [1])))
     ∃ n, n ≤ sorted.length ∧
       stC2.search [1] ((3:ℚ)/10) 3 = (sorted.take n).map (hydrate stC2) ∧
       (∀ i : Fin sorted.length, i.1 < n → (3:ℚ)/10 ≤ (sorted.get i).2 ∨ i.1 < 3) ∧
       (∀ h : n < sorted.length, (sorted.get ⟨n, h⟩).2 < (3:ℚ)/10 ∧ 3 ≤ n)) :=
  ⟨by decide, by decide,
    search_walk_policy.1 stC2 [1] ((3:ℚ)/10) 3 (by decide) (by decide)⟩

/-! ### Manager-level characterizations -/

/-- `save` when the batch embedding call succeeds: append the memory row and
the chunk rows, extend the matrix, persist both tables. -/
theorem saveM_some (provider : List Chars → Option (List (List ℚ)))
    (mid cr content : Chars) (ms : ManagerState) (el : List (List ℚ))
    (hp : provider (chunk_text content CHUNK_SIZE CHUNK_OVERLAP) = some el) :
    saveM provider mid cr content ms =
      ({ disk_memories := ms.load.memories ++ [⟨mid, content, cr⟩],
         disk_chunks := ms.load.chunks ++
           ((chunk_text content CHUNK_SIZE CHUNK_OVERLAP).zip el).enum.map
             (fun p => ⟨mid, p.1, p.2.1, p.2.2⟩),
         cache := some
           { memories := ms.load.memories ++ [⟨mid, content, cr⟩]
             chunks := ms.load.chunks ++
               ((chunk_text content CHUNK_SIZE CHUNK_OVERLAP).zip el).enum.map
                 (fun p => ⟨mid, p.1, p.2.1, p.2.2⟩)
             chunk_embeddings := ms.load.chunk_embeddings ++ el } }, some mid) := by
  unfold saveM
  dsimp only
  rw [hp]

/-- `save` when the batch embedding call fails: the error propagates, nothing
is persisted, but the cache keeps the already-appended memory row. -/
theorem saveM_none (provider : List Chars → Option (List (List ℚ)))
    (mid cr content : Chars) (ms : ManagerState)
    (hp : provider (chunk_text content CHUNK_SIZE CHUNK_OVERLAP) = none) :
    saveM provider mid cr content ms =
      ({ disk_memories := ms.disk_memories
         disk_chunks := ms.disk_chunks
         cache := some
           { memories := ms.load.memories ++ [⟨mid, content, cr⟩]
             chunks := ms.load.chunks
             chunk_embeddings := ms.load.chunk_embeddings } }, none) := by
  unfold saveM
  dsimp only
  rw [hp]

/-- `delete` of a present id: filter both tables, rebuild the matrix, persist. -/
theorem deleteM_found (mid : Chars) (ms : ManagerState)
    (h : mid ∈ ms.load.memories.map (·.id)) :
    deleteM mid ms =
      ({ disk_memories := ms.load.memories.filter (fun m => decide (m.id ≠ mid)),
         disk_chunks := ms.load.chunks.filter (fun c => decide (c.memory_id ≠ mid)),
         cache := some
           { memories := ms.load.memories.filter (fun m => decide (m.id ≠ mid))
             chunks := ms.load.chunks.filter (fun c => decide (c.memory_id ≠ mid))
             chunk_embeddings :=
               (ms.load.chunks.filter (fun c => decide (c.memory_id ≠ mid))).map
                 (·.embedding) } }, true) := by
  unfold deleteM Store.deleteOp
  dsimp only
  rw [if_pos h]
  rfl

/-- `delete` of an absent id: report `false`, persist nothing, keep the loaded
store as cache. -/
theorem deleteM_not_found (mid : Chars) (ms : ManagerState)
    (h : mid ∉ ms.load.memories.map (·.id)) :
    deleteM mid ms = ({ ms with cache := some ms.load }, false) := by
  unfold deleteM Store.deleteOp
  dsimp only
  rw [if_neg h]
  rfl

/-! ### C5: delete of an existing id -/

/-- **C5**: deleting a present memory id returns `true`, keeps exactly the
rows of the other memories in both tables (a row survives iff its id differs,
original order preserved), and rebuilds the embedding matrix from exactly the
surviving chunk rows. -/
theorem delete_existing (st : Store) (mid : Chars) (h : mid ∈ st.memories.map (·.id)) :
    (st.deleteOp mid).2 = true ∧
    (∀ m, m ∈ (st.deleteOp mid).1.memories ↔ m ∈ st.memories ∧ m.id ≠ mid) ∧
    (∀ c, c ∈ (st.deleteOp mid).1.chunks ↔ c ∈ st.chunks ∧ c.memory_id ≠ mid) ∧
    (st.deleteOp mid).1.memories.Sublist st.memories ∧
    (st.deleteOp mid).1.chunks.Sublist st.chunks ∧
    (st.deleteOp mid).1.chunk_embeddings = (st.deleteOp mid).1.chunks.map (·.embedding) := by
  unfold Store.deleteOp
  rw [if_pos h]
  refine ⟨rfl, ?_, ?_, ?_, ?_, rfl⟩
  · intro m
    simp [List.mem_filter]
  · intro c
    simp [List.mem_filter]
  · exact List.filter_sublist _
  · exact List.filter_sublist _

/-- Witness: C5 on the concrete store `stC2`, deleting memory `B`. -/
theorem delete_existing_witness :
    ("B".data) ∈ stC2.memories.map (·.id) ∧
    ((stC2.deleteOp ("B".data)).2 = true ∧
      (∀ m, m ∈ (stC2.deleteOp ("B".data)).1.memories ↔
        m ∈ stC2.memories ∧ m.id ≠ ("B".data)) ∧
      (∀ c, c ∈ (stC2.deleteOp ("B".data)).1.chunks ↔
        c ∈ stC2.chunks ∧ c.memory_id ≠ ("B".data)) ∧
      (stC2.deleteOp ("B".data)).1.memories.Sublist stC2.memories ∧
      (stC2.deleteOp ("B".data)).1.chunks.Sublist stC2.chunks ∧
      (stC2.deleteOp ("B".data)).1.chunk_embeddings =
        (stC2.deleteOp ("B".data)).1.chunks.map (·.embedding)) :=
  ⟨by decide, delete_existing stC2 (("B".data)) (by decide)⟩

/-! ### C6: delete of an unknown id -/

/-- **C6**: deleting an unknown memory id returns `false` and changes
nothing: at store level the state is returned untouched, and at manager level
the persisted tables and the served (loaded) store are exactly as before; no
error is raised. -/
theorem delete_unknown (st : Store) (ms : ManagerState) (mid : Chars)
    (h : mid ∉ st.memories.map (·.id)) (hms : mid ∉ ms.load.memories.map (·.id)) :
    st.deleteOp mid = (st, false) ∧
    (deleteM mid ms).2 = false ∧
    (deleteM mid ms).1.disk_memories = ms.disk_memories ∧
    (deleteM mid ms).1.disk_chunks = ms.disk_chunks ∧
    (deleteM mid ms).1.load = ms.load := by
  have h2 := deleteM_not_found mid ms hms
  refine ⟨?_, ?_, ?_, ?_, ?_⟩
  · unfold Store.deleteOp
    rw [if_neg h]
  · rw [h2]
  · rw [h2]
  · rw [h2]
  · rw [h2]
    rfl

/-- Witness: C6 on the store `stC2` and a manager persisting the same tables,
deleting the unknown id `Z`. -/
theorem delete_unknown_witness :
    (("Z".data) ∉ stC2.memories.map (·.id)) ∧
    (("Z".data) ∉
      (ManagerState.mk stC2.memories stC2.chunks none).load.memories.map (·.id)) ∧
    (stC2.deleteOp ("Z".data) = (stC2, false) ∧
      (deleteM ("Z".data) (ManagerState.mk stC2.memories stC2.chunks none)).2 = false ∧
      (deleteM ("Z".data) (ManagerState.mk stC2.memories stC2.chunks none)).1.disk_memories =
        (ManagerState.mk stC2.memories stC2.chunks none).disk_memories ∧
      (deleteM ("Z".data) (ManagerState.mk stC2.memories stC2.chunks none)).1.disk_chunks =
        (ManagerState.mk stC2.memories stC2.chunks none).disk_chunks ∧
      (deleteM ("Z".data) (ManagerState.mk stC2.memories stC2.chunks none)).1.load =
        (ManagerState.mk stC2.memories stC2.chunks none).load) :=
  ⟨by decide, by decide,
    delete_unknown stC2 (ManagerState.mk stC2.memories stC2.chunks none) (("Z".data))
      (by decide) (by decide)⟩

/-! ### C4: failed embedding call during save -/

/-- **C4** exhibit (code bug): after one successful save, a save whose
embedding call fails propagates the failure (`none`) and leaves the persisted
tables untouched — but the in-memory cache keeps the aborted memory row, so
`get_all` afterwards serves a mutated-but-not-persisted view: ids `[a, b]`
while durable storage holds only `[a]`. -/
theorem save_failure_leaves_dirty_cache :
    (saveM (fun _ => none) ("b".data) ("t2".data) ("yo".data)
        (saveM (fun _ => some [[1]]) ("a".data) ("t1".data) ("hi".data) initMS).1).2 =
      none ∧
    (saveM (fun _ => none) ("b".data) ("t2".data) ("yo".data)
        (saveM (fun _ => some [[1]]) ("a".data) ("t1".data) ("hi".data) initMS).1).1.disk_memories =
      (saveM (fun _ => some [[1]]) ("a".data) ("t1".data) ("hi".data) initMS).1.disk_memories ∧
    (saveM (fun _ => none) ("b".data) ("t2".data) ("yo".data)
        (saveM (fun _ => some [[1]]) ("a".data) ("t1".data) ("hi".data) initMS).1).1.disk_chunks =
      (saveM (fun _ => some [[1]]) ("a".data) ("t1".data) ("hi".data) initMS).1.disk_chunks ∧
    ((getAllM (saveM (fun _ => none) ("b".data) ("t2".data) ("yo".data)
        (saveM (fun _ => some [[1]]) ("a".data) ("t1".data) ("hi".data) initMS).1).1).2.map
      (·.id)) = [("a".data), ("b".data)] ∧
    ((saveM (fun _ => none) ("b".data) ("t2".data) ("yo".data)
        (saveM (fun _ => some [[1]]) ("a".data) ("t1".data) ("hi".data) initMS).1).1.disk_memories.map
      (·.id)) = [("a".data)] ∧
    (getAllM (saveM (fun _ => none) ("b".data) ("t2".data) ("yo".data)
        (saveM (fun _ => some [[1]]) ("a".data) ("t1".data) ("hi".data) initMS).1).1).2 ≠
      (saveM (fun _ => none) ("b".data) ("t2".data) ("yo".data)
        (saveM (fun _ => some [[1]]) ("a".data) ("t1".data) ("hi".data) initMS).1).1.disk_memories := by
  refine ⟨by decide, by decide, by decide, by decide, by decide, by decide⟩

/-! ### C1: the matrix/table invariant under save and delete -/

theorem enum_map_comp {α β : Type} (l : List α) (f : α → β) :
    (l.enum.map fun p => f p.2) = l.map f := by
  have h1 : (l.enum.map fun p => f p.2) = (l.enum.map Prod.snd).map f := by
    rw [List.map_map]
    rfl
  rw [h1, List.enum_map_snd]

theorem zip_map_snd_eq {α : Type} (ts : List α) (el : List (List ℚ))
    (h : el.length = ts.length) : ((ts.zip el).map fun q => q.2) = el := by
  induction ts generalizing el with
  | nil =>
    cases el with
    | nil => rfl
    | cons e el => simp at h
  | cons t ts ih =>
    cases el with
    | nil => simp at h
    | cons e el =>
      simp only [List.length_cons] at h
      simp only [List.zip_cons_cons, List.map_cons]
      rw [ih el (by omega)]

/-- The embedding column of the freshly built chunk rows is exactly the batch
answer, when the provider returned one vector per chunk. -/
theorem new_rows_embeddings (mid : Chars) (ts : List Chars) (el : List (List ℚ))
    (h : el.length = ts.length) :
    (((ts.zip el).enum.map fun p =>
        (⟨mid, p.1, p.2.1, p.2.2⟩ : ChunkRow)).map (·.embedding)) = el := by
  rw [List.map_map]
  have h1 : ((fun c : ChunkRow => c.embedding) ∘ fun p : Nat × (Chars × List ℚ) =>
      (⟨mid, p.1, p.2.1, p.2.2⟩ : ChunkRow)) = fun p : Nat × (Chars × List ℚ) => p.2.2 := rfl
  rw [h1, enum_map_comp (ts.zip el) (fun q => q.2)]
  exact zip_map_snd_eq ts el h

/-- A store loaded with no cache is always consistent. -/
theorem load_consistent (ms : ManagerState)
    (hc : ∀ st, ms.cache = some st → st.Consistent) : ms.load.Consistent := by
  cases h : ms.cache with
  | some st =>
    have h2 := hc st h
    simpa [ManagerState.load, h] using h2
  | none =>
    simp [ManagerState.load, h, Store.Consistent]

/-- One operation preserves consistency of the cached store. -/
theorem runOp_cacheOk (ms : ManagerState) (op : Op) (hwf : OpWF op)
    (hc : ∀ st, ms.cache = some st → st.Consistent) :
    ∀ st, (runOp ms op).cache = some st → st.Consistent := by
  have hload : ms.load.Consistent := load_consistent ms hc
  cases op with
  | save mid cr content embs =>
    cases embs with
    | none =>
      intro st hst
      rw [show runOp ms (.save mid cr content none) =
          (saveM (fun _ => none) mid cr content ms).1 from rfl,
        saveM_none (fun _ => none) mid cr content ms rfl] at hst
      simp only [Option.some.injEq] at hst
      rw [← hst]
      exact hload
    | some el =>
      intro st hst
      have hlen : el.length = (chunk_text content CHUNK_SIZE CHUNK_OVERLAP).length := hwf
      rw [show runOp ms (.save mid cr content (some el)) =
          (saveM (fun _ => some el) mid cr content ms).1 from rfl,
        saveM_some (fun _ => some el) mid cr content ms el rfl] at hst
      simp only [Option.some.injEq] at hst
      rw [← hst]
      show ms.load.chunk_embeddings ++ el =
        (ms.load.chunks ++ ((chunk_text content CHUNK_SIZE CHUNK_OVERLAP).zip el).enum.map
          (fun p => (⟨mid, p.1, p.2.1, p.2.2⟩ : ChunkRow))).map (·.embedding)
      rw [List.map_append, new_rows_embeddings mid _ el hlen, hload]
  | del mid =>
    intro st hst
    by_cases h : mid ∈ ms.load.memories.map (·.id)
    · rw [show runOp ms (.del mid) = (deleteM mid ms).1 from rfl,
        deleteM_found mid ms h] at hst
      simp only [Option.some.injEq] at hst
      rw [← hst]
      rfl
    · rw [show runOp ms (.del mid) = (deleteM mid ms).1 from rfl,
        deleteM_not_found mid ms h] at hst
      simp only [Option.some.injEq] at hst
      rw [← hst]
      exact hload

/-- Sequences of operations preserve consistency of the cached store. -/
theorem runOps_cacheOk (l : List Op) :
    ∀ ms : ManagerState, (∀ op ∈ l, OpWF op) →
      (∀ st, ms.cache = some st → st.Consistent) →
      (∀ st, (runOps ms l).cache = some st → st.Consistent) := by
  induction l with
  | nil => intro ms _ hc; exact hc
  | cons op l ih =>
    intro ms hwf hc
    have h1 := runOp_cacheOk ms op (hwf op (by simp)) hc
    exact ih (runOp ms op) (fun o ho => hwf o (by simp [ho])) h1

/-- **C1**: after any sequence of save/delete operations on a fresh manager —
failed embedding calls included, with successful batch answers having one
vector per chunk — the embedding matrix of the served store has exactly as
many rows as the chunk table, and row `i` is the embedding stored in chunk
row `i`. -/
theorem matrix_matches_chunk_table (ops : List Op) (hwf : ∀ op ∈ ops, OpWF op) :
    (runOps initMS ops).load.chunk_embeddings.length =
      (runOps initMS ops).load.chunks.length ∧
    ∀ i : Nat, (runOps initMS ops).load.chunk_embeddings[i]? =
      ((runOps initMS ops).load.chunks[i]?).map (·.embedding) := by
  have hcon : (runOps initMS ops).load.Consistent :=
    load_consistent _ (runOps_cacheOk ops initMS hwf (fun st h => by simp [initMS] at h))
  have hconEq : (runOps initMS ops).load.chunk_embeddings =
      (runOps initMS ops).load.chunks.map (·.embedding) := hcon
  constructor
  · rw [hconEq, List.length_map]
  · intro i
    rw [hconEq, List.getElem?_map]

/-- Witness: C1 on a concrete operation sequence — two saves (one failing),
a delete of an existing id and a delete of an unknown id. -/
theorem matrix_matches_chunk_table_witness :
    (∀ op ∈ [Op.save ("a".data) ("t1".data) ("hi".data) (some [[1]]),
        Op.save ("b".data) ("t2".data) ("ho".data) none,
        Op.save ("c".data) ("t3".data) ("yo".data) (some [[2]]),
        Op.del ("a".data), Op.del ("zz".data)], OpWF op) ∧
    ((runOps initMS [Op.save ("a".data) ("t1".data) ("hi".data) (some [[1]]),
        Op.save ("b".data) ("t2".data) ("ho".data) none,
        Op.save ("c".data) ("t3".data) ("yo".data) (some [[2]]),
        Op.del ("a".data), Op.del ("zz".data)]).load.chunk_embeddings.length =
      (runOps initMS [Op.save ("a".data) ("t1".data) ("hi".data) (some [[1]]),
        Op.save ("b".data) ("t2".data) ("ho".data) none,
        Op.save ("c".data) ("t3".data) ("yo".data) (some [[2]]),
        Op.del ("a".data), Op.del ("zz".data)]).load.chunks.length ∧
      ∀ i : Nat, (runOps initMS [Op.save ("a".data) ("t1".data) ("hi".data) (some [[1]]),
        Op.save ("b".data) ("t2".data) ("ho".data) none,
        Op.save ("c".data) ("t3".data) ("yo".data) (some [[2]]),
        Op.del ("a".data), Op.del ("zz".data)]).load.chunk_embeddings[i]? =
        ((runOps initMS [Op.save ("a".data) ("t1".data) ("hi".data) (some [[1]]),
          Op.save ("b".data) ("t2".data) ("ho".data) none,
          Op.save ("c".data) ("t3".data) ("yo".data) (some [[2]]),
          Op.del ("a".data), Op.del ("zz".data)]).load.chunks[i]?).map (·.embedding)) :=
  ⟨by decide, matrix_matches_chunk_table
    [Op.save (("a".data)) (("t1".data)) (("hi".data)) (some [[1]]),
      Op.save (("b".data)) (("t2".data)) (("ho".data)) none,
      Op.save (("c".data)) (("t3".data)) (("yo".data)) (some [[2]]),
      Op.del (("a".data)), Op.del (("zz".data))] (by decide)⟩

end Jarvis
